import Mathlib

/-!
Verification of the gcode-editor core: parser (`GcodeParser.parse` in
`client/src/lib/gcode-parser.ts`), transformer (`TransformationUtils` in
`server/routes.ts`), viewport mapper and selector (`GcodeRenderer`,
`GcodeParser.getCommandsInRegion`).  Strings are modelled as `List Char`
(JS strings), numbers as `ℚ` where the source only does field arithmetic
on decimal literals, and as `ℝ` where the source calls trigonometric
functions.  JS `Infinity` sentinels are modelled with `Option ℚ`
(`none` = the initial infinite extremum).
-/

namespace Gcode

/-- JS `String.prototype.trim` whitespace (the characters relevant here). -/
def isSpaceChar (c : Char) : Bool :=
  c = ' ' || c = '\t' || c = '\n' || c = '\r' || c = '\x0b' || c = '\x0c'

/-- JS `trim`: drop whitespace from both ends. -/
def trimL (l : List Char) : List Char :=
  ((l.dropWhile isSpaceChar).reverse.dropWhile isSpaceChar).reverse

/-- JS `content.split('\n')`: always at least one (possibly empty) piece. -/
def splitNl : List Char → List (List Char)
  | [] => [[]]
  | c :: rest =>
    if c = '\n' then [] :: splitNl rest
    else
      match splitNl rest with
      | [] => [[c]]
      | h :: t => (c :: h) :: t

/-- JS `lines.join('\n')`. -/
def joinNl : List (List Char) → List Char
  | [] => []
  | [l] => l
  | l :: rest => l ++ '\n' :: joinNl rest

/-- One parsed command, `gcodeCommandSchema` of `shared/schema.ts`:
optional numeric fields are `Option ℚ`, strings are `List Char`. -/
structure GcodeCommand where
  line : Nat
  command : List Char
  x : Option ℚ
  y : Option ℚ
  z : Option ℚ
  f : Option ℚ
  e : Option ℚ
  s : Option ℚ
  comment : Option (List Char)
  raw : List Char
deriving DecidableEq

/-- Numeric value of a digit character. -/
def digitVal (c : Char) : Nat := c.toNat - 48

/-- Decimal digits (most significant first) to a natural number. -/
def digitsToNat (l : List Char) : Nat :=
  l.foldl (fun acc c => acc * 10 + digitVal c) 0

/-- JS `parseFloat` on a string matching `\d+(\.\d*)?`. -/
def parseDecimal (l : List Char) : ℚ :=
  let intPart := l.takeWhile Char.isDigit
  let rest := l.dropWhile Char.isDigit
  let fracPart := match rest with
    | '.' :: fs => fs
    | _ => []
  (digitsToNat intPart : ℚ) + (digitsToNat fracPart : ℚ) / (10 ^ fracPart.length)

/-- JS `parseFloat` on a string matching `-?\d+\.?\d*`. -/
def parseNumber (l : List Char) : ℚ :=
  match l with
  | '-' :: rest => - parseDecimal rest
  | _ => parseDecimal l

/-- A letter of the parameter class `[XYZFEST]` with the `i` flag. -/
def isParamLetter (c : Char) : Bool :=
  let u := c.toUpper
  u = 'X' || u = 'Y' || u = 'Z' || u = 'F' || u = 'E' || u = 'S' || u = 'T'

/-- Greedy match of `-?\d+\.?\d*` at the start of the input: the matched
characters and the remainder, or `none` when the regex cannot match here. -/
def matchNumber (l : List Char) : Option (List Char × List Char) :=
  let (sign, l1) := match l with
    | '-' :: r => (['-'], r)
    | _ => (([] : List Char), l)
  let d1 := l1.takeWhile Char.isDigit
  let l2 := l1.dropWhile Char.isDigit
  if d1.isEmpty then none
  else
    match l2 with
    | '.' :: l3 =>
      let d2 := l3.takeWhile Char.isDigit
      some (sign ++ d1 ++ '.' :: d2, l3.dropWhile Char.isDigit)
    | _ => some (sign ++ d1, l2)

/-- Scan of `matchAll(/([XYZFEST])(-?\d+\.?\d*)/gi)` (fuel-driven so the
kernel can evaluate it): the matches in order, letter upper-cased. -/
def scanParamsAux : Nat → List Char → List (Char × ℚ)
  | 0, _ => []
  | _ + 1, [] => []
  | fuel + 1, c :: rest =>
    if isParamLetter c then
      match matchNumber rest with
      | some (num, rest2) => (c.toUpper, parseNumber num) :: scanParamsAux fuel rest2
      | none => scanParamsAux fuel rest
    else scanParamsAux fuel rest

/-- `GcodeParser.extractParameters`: ordered parameter matches of a line. -/
def extractParameters (line : List Char) : List (Char × ℚ) :=
  scanParamsAux line.length line

/-- `params[param] = value` with later matches overwriting earlier ones:
the value of the last match for the letter. -/
def paramValue (params : List (Char × ℚ)) (letter : Char) : Option ℚ :=
  ((params.filter (fun p => p.1 = letter)).getLast?).map (·.2)

/-- `GcodeParser.parseLine`: split an inline comment off at the first `;`,
require a leading `[GMT]\d+` token (case-insensitive, stored upper-cased),
extract parameters from the code portion.  `line` is the already-trimmed
line, stored verbatim as `raw`. -/
def parseLine (line : List Char) (lineNumber : Nat) : Option GcodeCommand :=
  let codePart0 := line.takeWhile (fun c => c ≠ ';')
  let comment : Option (List Char) :=
    if codePart0.length = line.length then none
    else some (trimL (line.drop (codePart0.length + 1)))
  let codePart := trimL codePart0
  match codePart with
  | [] => none
  | c :: rest =>
    if c.toUpper = 'G' ∨ c.toUpper = 'M' ∨ c.toUpper = 'T' then
      let digits := rest.takeWhile Char.isDigit
      if digits.isEmpty then none
      else
        let params := extractParameters codePart
        some {
          line := lineNumber
          command := c.toUpper :: digits
          x := paramValue params 'X'
          y := paramValue params 'Y'
          z := paramValue params 'Z'
          f := paramValue params 'F'
          e := paramValue params 'E'
          s := paramValue params 'S'
          comment := comment
          raw := line }
    else none

/-- The command pushed for a comment-only line (`trimmedLine` starts with
`;`). -/
def commentCommand (lineNumber : Nat) (t : List Char) : GcodeCommand :=
  { line := lineNumber
    command := []
    x := none, y := none, z := none, f := none, e := none, s := none
    comment := some (trimL (t.drop 1))
    raw := t }

/-- One iteration of the `lines.forEach` body of `GcodeParser.parse`:
`none` when the line produces no command. -/
def processLine (index : Nat) (l : List Char) : Option GcodeCommand :=
  let t := trimL l
  match t with
  | [] => none
  | c :: _ => if c = ';' then some (commentCommand (index + 1) t) else parseLine t (index + 1)

/-- The `forEach` loop: commands pushed in order, 0-based `index`. -/
def parseLinesFrom : Nat → List (List Char) → List GcodeCommand
  | _, [] => []
  | i, l :: ls =>
    match processLine i l with
    | some c => c :: parseLinesFrom (i + 1) ls
    | none => parseLinesFrom (i + 1) ls

/-- `GcodeParser.parse`. -/
def parse (content : List Char) : List GcodeCommand :=
  parseLinesFrom 0 (splitNl content)

/-- `TransformationUtils.reconstructGcodeContent`: comment-only entries
(with a JS-truthy, i.e. nonempty, comment) re-emit `"; " + comment`,
everything else its `raw`, joined with newlines. -/
def reconstructGcodeContent (commands : List GcodeCommand) : List Char :=
  joinNl (commands.map fun cmd =>
    if cmd.command = [] ∧ cmd.comment.getD [] ≠ [] ∧ cmd.comment ≠ none then
      ';' :: ' ' :: cmd.comment.getD []
    else cmd.raw)

/-- `transformationSchema` of `shared/schema.ts` (all fields defaulted by
zod, so always present). -/
structure Transformation where
  translateX : ℚ
  translateY : ℚ
  translateZ : ℚ
  rotation : ℚ
  scaleX : ℚ
  scaleY : ℚ
deriving DecidableEq

/-- `parseFloat(q.toFixed(3))`: round to the nearest thousandth, ties away
from zero resolved upward as in `Number.prototype.toFixed`. -/
def round3q (q : ℚ) : ℚ := (round (q * 1000) : ℚ) / 1000

/-- `parseFloat(r.toFixed(3))` on a real intermediate value. -/
noncomputable def round3R (r : ℝ) : ℚ := (round (r * 1000) : ℚ) / 1000

/-- Decimal digit character of `n < 10`. -/
def digitChar (n : Nat) : Char := Char.ofNat (48 + n)

/-- Decimal digits of a natural number, most significant first
(fuel-driven so the kernel can evaluate it). -/
def natDigitsAux : Nat → Nat → List Char
  | 0, _ => []
  | fuel + 1, n =>
    if n < 10 then [digitChar n]
    else natDigitsAux fuel (n / 10) ++ [digitChar (n % 10)]

/-- Decimal digits of a natural number. -/
def natDigits (n : Nat) : List Char := natDigitsAux (n + 1) n

/-- `m` printed with leading zeros to `k` digits. -/
def padDigits (k m : Nat) : List Char :=
  let d := natDigits m
  List.replicate (k - d.length) '0' ++ d

/-- The text `n.toFixed(3)` produces once `n` thousandths have been
selected: sign, integer digits, `.`, exactly three fractional digits. -/
def formatMilli (n : ℤ) : List Char :=
  (if n < 0 then ['-'] else []) ++
    natDigits (n.natAbs / 1000) ++ '.' :: padDigits 3 (n.natAbs % 1000)

/-- JS `q.toFixed(3)` for an exact rational value. -/
def toFixed3q (q : ℚ) : List Char := formatMilli (round (q * 1000))

/-- JS `r.toFixed(3)` for a real intermediate value. -/
noncomputable def toFixed3R (r : ℝ) : List Char := formatMilli (round (r * 1000))

/-- JS number-to-string as used by `` `F${f}` `` / `` `S${s}` ``: the values
interpolated there come from `parseFloat` of decimal literals, so they are
terminating decimals in the normal range, printed as the shortest plain
decimal (no exponent form arises). -/
def numToString (q : ℚ) : List Char :=
  let sign : List Char := if q < 0 then ['-'] else []
  let a : ℚ := |q|
  let k := (((List.range 21).find? fun k => (a * 10 ^ k).den == 1).getD 20)
  let scaled := (a * 10 ^ k).num.toNat
  if k = 0 then sign ++ natDigits scaled
  else sign ++ natDigits (scaled / 10 ^ k) ++ '.' :: padDigits k (scaled % 10 ^ k)

/-- `TransformationUtils.regenerateGcodeLine`.  `x` and `y` are the (always
present) transformed coordinates, `z` the possibly-translated z, all still
unrounded as in the source; the comment is re-attached only when JS-truthy
(nonempty). -/
noncomputable def regenerateGcodeLine (originalCmd : GcodeCommand) (x y : ℝ)
    (z : Option ℚ) : List Char :=
  originalCmd.command
    ++ (' ' :: 'X' :: toFixed3R x)
    ++ (' ' :: 'Y' :: toFixed3R y)
    ++ (match z with
        | some zv => ' ' :: 'Z' :: toFixed3q zv
        | none => [])
    ++ (match originalCmd.f with
        | some fv => ' ' :: 'F' :: numToString fv
        | none => [])
    ++ (match originalCmd.e with
        | some ev => ' ' :: 'E' :: toFixed3q ev
        | none => [])
    ++ (match originalCmd.s with
        | some sv => ' ' :: 'S' :: numToString sv
        | none => [])
    ++ (match originalCmd.comment with
        | some cmt => if cmt.isEmpty then [] else ' ' :: ';' :: ' ' :: cmt
        | none => [])

/-- The coordinate pipeline of `applyTransformationToRegion` on a command
with both `x` and `y` defined: rotate about the world origin when
`rotation ≠ 0` (degrees converted to radians, standard counter-clockwise
matrix), then scale per axis, then translate. -/
noncomputable def transformPoint (t : Transformation) (cx cy : ℚ) : ℝ × ℝ :=
  let x0 : ℝ := (cx : ℝ)
  let y0 : ℝ := (cy : ℝ)
  let p : ℝ × ℝ :=
    if t.rotation ≠ 0 then
      let angle : ℝ := (t.rotation : ℝ) * Real.pi / 180
      (x0 * Real.cos angle - y0 * Real.sin angle,
       x0 * Real.sin angle + y0 * Real.cos angle)
    else (x0, y0)
  (p.1 * (t.scaleX : ℝ) + (t.translateX : ℝ),
   p.2 * (t.scaleY : ℝ) + (t.translateY : ℝ))

/-- The body of `applyTransformationToRegion` once a selected command with
both `x` and `y` defined has been fetched: the coordinate pipeline,
z-translation when `translateZ ≠ 0`, then the 3-decimal roundings and the
regenerated `raw` are stored. -/
noncomputable def transformCommandXY (t : Transformation) (cmd : GcodeCommand)
    (cx cy : ℚ) : GcodeCommand :=
  let p : ℝ × ℝ := transformPoint t cx cy
  let z1 : Option ℚ :=
    if t.translateZ ≠ 0 then cmd.z.map (fun zv => zv + t.translateZ) else cmd.z
  { cmd with
    x := some (round3R p.1)
    y := some (round3R p.2)
    z := z1.map round3q
    raw := regenerateGcodeLine cmd p.1 p.2 z1 }

/-- One iteration of the `selectedIndices.forEach` body of
`applyTransformationToRegion`. -/
noncomputable def applyStep (t : Transformation) (result : List GcodeCommand)
    (index : ℤ) : List GcodeCommand :=
  if h : 0 ≤ index ∧ index.toNat < result.length then
    match (result.get ⟨index.toNat, h.2⟩).x, (result.get ⟨index.toNat, h.2⟩).y with
    | some cx, some cy =>
      result.set index.toNat (transformCommandXY t (result.get ⟨index.toNat, h.2⟩) cx cy)
    | _, _ => result
  else result

/-- `TransformationUtils.applyTransformationToRegion`: copy the list, then
for each selected index in bounds whose entry has both `x` and `y`, replace
the entry with its transform. -/
noncomputable def applyTransformationToRegion (commands : List GcodeCommand)
    (selectedIndices : List ℤ) (t : Transformation) : List GcodeCommand :=
  selectedIndices.foldl (applyStep t) commands

/-- JS `commands[index]` for a possibly negative or out-of-range index. -/
def elemAt (commands : List GcodeCommand) (index : ℤ) : Option GcodeCommand :=
  if index < 0 then none else commands.get? index.toNat

/-- `Math.min` against a running minimum initialised to `Infinity`
(`none` models the still-infinite state). -/
def minAcc (m : Option ℚ) (v : ℚ) : Option ℚ :=
  match m with
  | none => some v
  | some w => some (min w v)

/-- `Math.max` against a running maximum initialised to `-Infinity`. -/
def maxAcc (m : Option ℚ) (v : ℚ) : Option ℚ :=
  match m with
  | none => some v
  | some w => some (max w v)

/-- The six extrema of `calculateSelectionBounds` mid-loop; `none` models
the `Infinity` / `-Infinity` initial sentinels. -/
structure ExtremaState where
  minX : Option ℚ
  maxX : Option ℚ
  minY : Option ℚ
  maxY : Option ℚ
  minZ : Option ℚ
  maxZ : Option ℚ
deriving DecidableEq

/-- One loop body of `calculateSelectionBounds` for a found command. -/
def updateExtrema (st : ExtremaState) (cmd : GcodeCommand) : ExtremaState :=
  let st1 := match cmd.x with
    | some v => { st with minX := minAcc st.minX v, maxX := maxAcc st.maxX v }
    | none => st
  let st2 := match cmd.y with
    | some v => { st1 with minY := minAcc st1.minY v, maxY := maxAcc st1.maxY v }
    | none => st1
  match cmd.z with
  | some v => { st2 with minZ := minAcc st2.minZ v, maxZ := maxAcc st2.maxZ v }
  | none => st2

/-- The returned bounding box (all six extrema finite). -/
structure SelectionBounds where
  minX : ℚ
  maxX : ℚ
  minY : ℚ
  maxY : ℚ
  minZ : ℚ
  maxZ : ℚ
deriving DecidableEq

/-- `minX === Infinity ? 0 : minX` (and its `-Infinity` dual). -/
def extremumOrZero (m : Option ℚ) : ℚ := m.getD 0

/-- One iteration of the `selectedIndices.forEach` body of
`calculateSelectionBounds` (`if (!cmd) return;`). -/
def selBoundsStep (commands : List GcodeCommand) (st : ExtremaState)
    (index : ℤ) : ExtremaState :=
  match elemAt commands index with
  | none => st
  | some cmd => updateExtrema st cmd

/-- `TransformationUtils.calculateSelectionBounds`. -/
def calculateSelectionBounds (commands : List GcodeCommand)
    (selectedIndices : List ℤ) : Option SelectionBounds :=
  if selectedIndices.isEmpty then none
  else
    let st := selectedIndices.foldl (selBoundsStep commands)
      ⟨none, none, none, none, none, none⟩
    some ⟨extremumOrZero st.minX, extremumOrZero st.maxX,
          extremumOrZero st.minY, extremumOrZero st.maxY,
          extremumOrZero st.minZ, extremumOrZero st.maxZ⟩

/-- The renderer's `bounds` field. -/
structure RenderBounds where
  minX : ℚ
  maxX : ℚ
  minY : ℚ
  maxY : ℚ
deriving DecidableEq

/-- The renderer's derived `scale` / `offsetX` / `offsetY` state. -/
structure RendererTransform where
  scale : ℚ
  offsetX : ℚ
  offsetY : ℚ
deriving DecidableEq

/-- `GcodeRenderer.calculateTransform` (surface `width`, `height` and
`padding` come from the renderer settings). -/
def calculateTransform (width height padding : ℚ) (bounds : RenderBounds) :
    RendererTransform :=
  let availableWidth := width - 2 * padding
  let availableHeight := height - 2 * padding
  let dataWidth := bounds.maxX - bounds.minX
  let dataHeight := bounds.maxY - bounds.minY
  if dataWidth = 0 ∨ dataHeight = 0 then
    { scale := 1, offsetX := width / 2, offsetY := height / 2 }
  else
    let scale := min (availableWidth / dataWidth) (availableHeight / dataHeight) * (9 / 10)
    { scale := scale
      offsetX := padding + (availableWidth - dataWidth * scale) / 2 - bounds.minX * scale
      offsetY := padding + (availableHeight - dataHeight * scale) / 2 - bounds.minY * scale }

/-- `GcodeRenderer.worldToScreen` (`height` is `settings.height`). -/
def worldToScreen (v : RendererTransform) (height x y : ℚ) : ℚ × ℚ :=
  (x * v.scale + v.offsetX, height - (y * v.scale + v.offsetY))

/-- `GcodeRenderer.screenToWorld`. -/
def screenToWorld (v : RendererTransform) (height sx sy : ℚ) : ℚ × ℚ :=
  ((sx - v.offsetX) / v.scale, (height - sy - v.offsetY) / v.scale)

/-- `GcodeParser.getCommandsInRegion`. -/
def getCommandsInRegion (commands : List GcodeCommand) (x1 y1 x2 y2 : ℚ) :
    List GcodeCommand :=
  let minX := min x1 x2
  let maxX := max x1 x2
  let minY := min y1 y2
  let maxY := max y1 y2
  commands.filter fun cmd =>
    match cmd.x, cmd.y with
    | some cx, some cy =>
      decide (minX ≤ cx) && decide (cx ≤ maxX) && decide (minY ≤ cy) && decide (cy ≤ maxY)
    | _, _ => false

end Gcode

namespace Gcode

/-- C1: parsing the line `G1 X1` stores `x = 1` — the parser has no units
input at all and never multiplies linear values by 25.4, so an imperial
file's `X1` is stored as 1, not 25.4. -/
theorem c1_parse_stores_x_unconverted :
    parse ("G1 X1".data) = [{
      line := 1
      command := "G1".data
      x := some 1
      y := none, z := none, f := none, e := none, s := none
      comment := none
      raw := "G1 X1".data }] := by
  with_unfolding_all decide

/-- C5: with a nondegenerate viewport mapping (nonzero scale),
`screenToWorld` and `worldToScreen` are exact two-sided inverses; and
`calculateTransform` yields a nonzero scale from every mapping built on
non-zero-span bounds over a positive padded surface, so such mappings are
nondegenerate. -/
theorem c5_viewport_roundtrip (v : RendererTransform) (height x y sx sy : ℚ)
    (hscale : v.scale ≠ 0) :
    (screenToWorld v height (worldToScreen v height x y).1
        (worldToScreen v height x y).2 = (x, y) ∧
     worldToScreen v height (screenToWorld v height sx sy).1
        (screenToWorld v height sx sy).2 = (sx, sy)) ∧
    (∀ (width hgt padding : ℚ) (bounds : RenderBounds),
      bounds.minX < bounds.maxX → bounds.minY < bounds.maxY →
      2 * padding < width → 2 * padding < hgt →
      (calculateTransform width hgt padding bounds).scale ≠ 0) := by
  constructor
  · constructor
    · simp only [worldToScreen, screenToWorld, Prod.mk.injEq]
      constructor
      · field_simp
      · field_simp
    · simp only [worldToScreen, screenToWorld, Prod.mk.injEq]
      constructor
      · field_simp
      · field_simp
  · intro w hg p b h1 h2 h3 h4
    have hdw : b.maxX - b.minX ≠ 0 := by intro hz; linarith
    have hdh : b.maxY - b.minY ≠ 0 := by intro hz; linarith
    simp only [calculateTransform]
    rw [if_neg (by push_neg; exact ⟨hdw, hdh⟩)]
    show min ((w - 2 * p) / (b.maxX - b.minX)) ((hg - 2 * p) / (b.maxY - b.minY)) *
      (9 / 10) ≠ 0
    have hs1 : 0 < (w - 2 * p) / (b.maxX - b.minX) :=
      div_pos (by linarith) (by linarith)
    have hs2 : 0 < (hg - 2 * p) / (b.maxY - b.minY) :=
      div_pos (by linarith) (by linarith)
    have hpos : 0 < min ((w - 2 * p) / (b.maxX - b.minX))
        ((hg - 2 * p) / (b.maxY - b.minY)) * (9 / 10) :=
      mul_pos (lt_min hs1 hs2) (by norm_num)
    exact ne_of_gt hpos

/-- Witness for C5 at the concrete mapping `scale = 2`, offsets `(3, 4)`,
surface height `100`. -/
theorem c5_viewport_roundtrip_witness :
    ((⟨2, 3, 4⟩ : RendererTransform).scale ≠ 0) ∧
    (screenToWorld ⟨2, 3, 4⟩ 100 (worldToScreen ⟨2, 3, 4⟩ 100 5 6).1
        (worldToScreen ⟨2, 3, 4⟩ 100 5 6).2 = (5, 6) ∧
     worldToScreen ⟨2, 3, 4⟩ 100 (screenToWorld ⟨2, 3, 4⟩ 100 7 8).1
        (screenToWorld ⟨2, 3, 4⟩ 100 7 8).2 = (7, 8)) :=
  ⟨by norm_num, (c5_viewport_roundtrip ⟨2, 3, 4⟩ 100 5 6 7 8 (by norm_num)).1⟩

/-- C6: `calculateTransform` on degenerate (zero-span) bounds takes the
fallback branch — scale exactly 1, offsets at the surface midpoint, no
division performed — and on non-degenerate bounds computes
`scale = min(availW/dataW, availH/dataH) · 0.9`. -/
theorem c6_recompute_scale (width height padding : ℚ) (bounds : RenderBounds) :
    ((bounds.maxX - bounds.minX = 0 ∨ bounds.maxY - bounds.minY = 0) →
      calculateTransform width height padding bounds =
        { scale := 1, offsetX := width / 2, offsetY := height / 2 }) ∧
    (bounds.maxX - bounds.minX ≠ 0 → bounds.maxY - bounds.minY ≠ 0 →
      (calculateTransform width height padding bounds).scale =
        min ((width - 2 * padding) / (bounds.maxX - bounds.minX))
          ((height - 2 * padding) / (bounds.maxY - bounds.minY)) * (9 / 10)) := by
  constructor
  · intro h
    simp only [calculateTransform]
    rw [if_pos h]
  · intro h1 h2
    simp only [calculateTransform]
    rw [if_neg (by push_neg; exact ⟨h1, h2⟩)]

/-- Witness for C6: a single-point bound gets the fallback mapping, and a
10×5 bound on a 200×100 surface with padding 10 gets scale
`min(180/10, 80/5) · 0.9 = 14.4`. -/
theorem c6_recompute_scale_witness :
    (calculateTransform 200 100 10 ⟨0, 0, 0, 5⟩ =
      { scale := 1, offsetX := 100, offsetY := 50 }) ∧
    (calculateTransform 200 100 10 ⟨0, 10, 0, 5⟩).scale = 72 / 5 := by
  constructor
  · have h := (c6_recompute_scale 200 100 10 ⟨0, 0, 0, 5⟩).1 (Or.inl (by norm_num))
    rw [h]
    norm_num
  · have h := (c6_recompute_scale 200 100 10 ⟨0, 10, 0, 5⟩).2 (by norm_num) (by norm_num)
    rw [h]
    norm_num

/-- C7: region selection is invariant under swapping the two rectangle
corners, and a command is selected iff both its coordinates are defined and
lie inclusively between the per-axis minimum and maximum of the corners
(commands lacking x or y are never selected). -/
theorem c7_region_membership (commands : List GcodeCommand) (x1 y1 x2 y2 : ℚ) :
    getCommandsInRegion commands x1 y1 x2 y2 =
      getCommandsInRegion commands x2 y2 x1 y1 ∧
    ∀ cmd, cmd ∈ getCommandsInRegion commands x1 y1 x2 y2 ↔
      cmd ∈ commands ∧ ∃ cx cy, cmd.x = some cx ∧ cmd.y = some cy ∧
        min x1 x2 ≤ cx ∧ cx ≤ max x1 x2 ∧ min y1 y2 ≤ cy ∧ cy ≤ max y1 y2 := by
  constructor
  · simp only [getCommandsInRegion]
    rw [min_comm x1 x2, max_comm x1 x2, min_comm y1 y2, max_comm y1 y2]
  · intro cmd
    simp only [getCommandsInRegion, List.mem_filter]
    cases hx : cmd.x with
    | none => simp [hx]
    | some cx =>
      cases hy : cmd.y with
      | none => simp [hx, hy]
      | some cy =>
        simp [hx, hy, Bool.and_eq_true, decide_eq_true_eq, and_assoc]

/-- `applyStep` never changes the list length. -/
theorem applyStep_length (t : Transformation) (acc : List GcodeCommand) (i : ℤ) :
    (applyStep t acc i).length = acc.length := by
  unfold applyStep
  split
  · split <;> simp
  · rfl

/-- The whole transform loop never changes the list length. -/
theorem applyFold_length (t : Transformation) :
    ∀ (inds : List ℤ) (acc : List GcodeCommand),
      (inds.foldl (applyStep t) acc).length = acc.length
  | [], _ => rfl
  | i :: inds, acc => by
    rw [List.foldl_cons, applyFold_length t inds, applyStep_length]

/-- An out-of-range index leaves the accumulator untouched. -/
theorem applyStep_out_of_range (t : Transformation) (acc : List GcodeCommand)
    (i : ℤ) (h : ¬(0 ≤ i ∧ i.toNat < acc.length)) : applyStep t acc i = acc := by
  unfold applyStep
  rw [dif_neg h]

/-- The transform loop only ever acts on in-range indices. -/
theorem applyFold_filter_in_range (t : Transformation) (n : ℕ) :
    ∀ (inds : List ℤ) (acc : List GcodeCommand), acc.length = n →
      inds.foldl (applyStep t) acc =
        (inds.filter fun i => decide (0 ≤ i) && decide (i < (n : ℤ))).foldl
          (applyStep t) acc
  | [], _, _ => rfl
  | i :: inds, acc, hl => by
    by_cases hi : 0 ≤ i ∧ i < (n : ℤ)
    · have hfilter :
          (i :: inds).filter (fun i => decide (0 ≤ i) && decide (i < (n : ℤ))) =
            i :: inds.filter fun i => decide (0 ≤ i) && decide (i < (n : ℤ)) := by
        simp [List.filter_cons, hi.1, hi.2]
      rw [hfilter, List.foldl_cons, List.foldl_cons,
        applyFold_filter_in_range t n inds _ (by rw [applyStep_length]; exact hl)]
    · have hfilter :
          (i :: inds).filter (fun i => decide (0 ≤ i) && decide (i < (n : ℤ))) =
            inds.filter fun i => decide (0 ≤ i) && decide (i < (n : ℤ)) := by
        simp only [List.filter_cons]
        rw [if_neg (by simpa [Bool.and_eq_true, decide_eq_true_eq] using hi)]
      have hstep : applyStep t acc i = acc :=
        applyStep_out_of_range t acc i (by omega)
      rw [List.foldl_cons, hstep, hfilter,
        applyFold_filter_in_range t n inds acc hl]

/-- `updateExtrema`, field by field: each axis extremum is updated exactly
when the command carries that axis. -/
theorem updateExtrema_fields (st : ExtremaState) (cmd : GcodeCommand) :
    updateExtrema st cmd = {
      minX := match cmd.x with | some v => minAcc st.minX v | none => st.minX
      maxX := match cmd.x with | some v => maxAcc st.maxX v | none => st.maxX
      minY := match cmd.y with | some v => minAcc st.minY v | none => st.minY
      maxY := match cmd.y with | some v => maxAcc st.maxY v | none => st.maxY
      minZ := match cmd.z with | some v => minAcc st.minZ v | none => st.minZ
      maxZ := match cmd.z with | some v => maxAcc st.maxZ v | none => st.maxZ } := by
  cases hx : cmd.x <;> cases hy : cmd.y <;> cases hz : cmd.z <;>
    simp [updateExtrema, hx, hy, hz]

/-- The extremum loop of `calculateSelectionBounds`, decomposed into six
independent folds over the per-axis value lists of the selected commands. -/
theorem selFold_extrema (commands : List GcodeCommand) :
    ∀ (inds : List ℤ) (st : ExtremaState),
      inds.foldl (selBoundsStep commands) st = {
        minX := (inds.filterMap fun i => (elemAt commands i).bind (·.x)).foldl minAcc st.minX
        maxX := (inds.filterMap fun i => (elemAt commands i).bind (·.x)).foldl maxAcc st.maxX
        minY := (inds.filterMap fun i => (elemAt commands i).bind (·.y)).foldl minAcc st.minY
        maxY := (inds.filterMap fun i => (elemAt commands i).bind (·.y)).foldl maxAcc st.maxY
        minZ := (inds.filterMap fun i => (elemAt commands i).bind (·.z)).foldl minAcc st.minZ
        maxZ := (inds.filterMap fun i => (elemAt commands i).bind (·.z)).foldl maxAcc st.maxZ }
  | [], st => by simp
  | i :: inds, st => by
    rw [List.foldl_cons, selFold_extrema commands inds]
    cases he : elemAt commands i with
    | none => simp [selBoundsStep, he, List.filterMap_cons]
    | some cmd =>
      cases hx : cmd.x <;> cases hy : cmd.y <;> cases hz : cmd.z <;>
        simp [selBoundsStep, he, updateExtrema_fields, hx, hy, hz, List.filterMap_cons]

/-- Folding `Math.min` from a finite running minimum. -/
theorem foldl_minAcc_some : ∀ (l : List ℚ) (w : ℚ),
    l.foldl minAcc (some w) = some (l.foldl min w)
  | [], _ => rfl
  | v :: l, w => by
    rw [List.foldl_cons, List.foldl_cons]
    exact foldl_minAcc_some l (min w v)

/-- Folding `Math.min` from the `Infinity` sentinel computes `List.min?`. -/
theorem foldl_minAcc_none : ∀ (l : List ℚ), l.foldl minAcc none = l.min?
  | [] => rfl
  | v :: l => by
    rw [List.foldl_cons, List.min?_cons']
    exact foldl_minAcc_some l v

/-- Folding `Math.max` from a finite running maximum. -/
theorem foldl_maxAcc_some : ∀ (l : List ℚ) (w : ℚ),
    l.foldl maxAcc (some w) = some (l.foldl max w)
  | [], _ => rfl
  | v :: l, w => by
    rw [List.foldl_cons, List.foldl_cons]
    exact foldl_maxAcc_some l (max w v)

/-- Folding `Math.max` from the `-Infinity` sentinel computes `List.max?`. -/
theorem foldl_maxAcc_none : ∀ (l : List ℚ), l.foldl maxAcc none = l.max?
  | [] => rfl
  | v :: l => by
    rw [List.foldl_cons, List.max?_cons']
    exact foldl_maxAcc_some l v

/-- C8: `calculateSelectionBounds` returns `null` exactly on an empty index
list; on a non-empty one it returns the per-axis min/max over the selected
commands carrying that axis (`List.min?`/`List.max?` of the axis values),
each axis with no contributing command resolving to `0` — the result is a
record of rationals, so no `Infinity`, `-Infinity` or `NaN` can escape. -/
theorem c8_selection_bounds (commands : List GcodeCommand)
    (selectedIndices : List ℤ) :
    (calculateSelectionBounds commands selectedIndices = none ↔
      selectedIndices = []) ∧
    (selectedIndices ≠ [] →
      calculateSelectionBounds commands selectedIndices = some {
        minX := (((selectedIndices.filterMap fun i => (elemAt commands i).bind (·.x))).min?).getD 0
        maxX := (((selectedIndices.filterMap fun i => (elemAt commands i).bind (·.x))).max?).getD 0
        minY := (((selectedIndices.filterMap fun i => (elemAt commands i).bind (·.y))).min?).getD 0
        maxY := (((selectedIndices.filterMap fun i => (elemAt commands i).bind (·.y))).max?).getD 0
        minZ := (((selectedIndices.filterMap fun i => (elemAt commands i).bind (·.z))).min?).getD 0
        maxZ := (((selectedIndices.filterMap fun i => (elemAt commands i).bind (·.z))).max?).getD 0 }) := by
  have hmain : selectedIndices ≠ [] →
      calculateSelectionBounds commands selectedIndices = some {
        minX := (((selectedIndices.filterMap fun i => (elemAt commands i).bind (·.x))).min?).getD 0
        maxX := (((selectedIndices.filterMap fun i => (elemAt commands i).bind (·.x))).max?).getD 0
        minY := (((selectedIndices.filterMap fun i => (elemAt commands i).bind (·.y))).min?).getD 0
        maxY := (((selectedIndices.filterMap fun i => (elemAt commands i).bind (·.y))).max?).getD 0
        minZ := (((selectedIndices.filterMap fun i => (elemAt commands i).bind (·.z))).min?).getD 0
        maxZ := (((selectedIndices.filterMap fun i => (elemAt commands i).bind (·.z))).max?).getD 0 } := by
    intro hne
    simp only [calculateSelectionBounds]
    rw [if_neg (by simpa [List.isEmpty_iff] using hne)]
    rw [selFold_extrema]
    simp [extremumOrZero, foldl_minAcc_none, foldl_maxAcc_none]
  refine ⟨⟨fun h => ?_, fun h => by simp [calculateSelectionBounds, h]⟩, hmain⟩
  by_contra hne
  rw [hmain hne] at h
  exact Option.noConfusion h

/-- The bookkeeping fields of a command that the transformer never touches. -/
def metaFields (cmd : GcodeCommand) :
    Nat × List Char × Option ℚ × Option ℚ × Option ℚ × Option (List Char) :=
  (cmd.line, cmd.command, cmd.f, cmd.e, cmd.s, cmd.comment)

/-- The transform rewrites only `x`, `y`, `z` and `raw`. -/
theorem metaFields_transformCommandXY (t : Transformation) (cmd : GcodeCommand)
    (cx cy : ℚ) : metaFields (transformCommandXY t cmd cx cy) = metaFields cmd := rfl

/-- `applyStep` leaves every position other than its own index unchanged. -/
theorem applyStep_getElem?_ne (t : Transformation) (acc : List GcodeCommand)
    (i : ℤ) (j : ℕ) (hne : (j : ℤ) ≠ i) : (applyStep t acc i)[j]? = acc[j]? := by
  unfold applyStep
  split
  · rename_i h
    split
    · exact List.getElem?_set_ne (by omega)
    · rfl
  · rfl

/-- `applyStep` leaves a position whose entry lacks `x` or `y` unchanged. -/
theorem applyStep_getElem?_missing (t : Transformation) (acc : List GcodeCommand)
    (i : ℤ) (j : ℕ)
    (hmiss : (acc[j]?.bind (·.x)) = none ∨ (acc[j]?.bind (·.y)) = none) :
    (applyStep t acc i)[j]? = acc[j]? := by
  by_cases hne : (j : ℤ) = i
  · unfold applyStep
    split
    · rename_i h
      have hj : i.toNat = j := by omega
      split
      · rename_i cx cy hxs hys
        exfalso
        have hget : acc[j]? = some (acc.get ⟨i.toNat, h.2⟩) := by
          rw [← hj]
          simp [List.getElem?_eq_getElem h.2]
        rcases hmiss with hm | hm <;> rw [hget] at hm <;> simp_all
      · rfl
    · rfl
  · exact applyStep_getElem?_ne t acc i j hne

/-- Positions outside the selected index list survive the whole loop. -/
theorem applyFold_not_selected (t : Transformation) :
    ∀ (inds : List ℤ) (acc : List GcodeCommand) (j : ℕ), ((j : ℤ) ∉ inds) →
      (inds.foldl (applyStep t) acc)[j]? = acc[j]?
  | [], _, _, _ => rfl
  | i :: inds, acc, j, hnot => by
    rw [List.foldl_cons,
      applyFold_not_selected t inds _ j (fun hm => hnot (List.mem_cons_of_mem i hm)),
      applyStep_getElem?_ne t acc i j (fun he => hnot (he ▸ List.mem_cons_self i inds))]

/-- Positions whose entry lacks `x` or `y` survive the whole loop. -/
theorem applyFold_missing (t : Transformation) (commands : List GcodeCommand) :
    ∀ (inds : List ℤ) (acc : List GcodeCommand) (j : ℕ),
      acc[j]? = commands[j]? →
      ((commands[j]?.bind (·.x)) = none ∨ (commands[j]?.bind (·.y)) = none) →
      (inds.foldl (applyStep t) acc)[j]? = commands[j]?
  | [], _, _, hacc, _ => hacc
  | i :: inds, acc, j, hacc, hmiss => by
    rw [List.foldl_cons]
    refine applyFold_missing t commands inds _ j ?_ hmiss
    rw [applyStep_getElem?_missing t acc i j (by rw [hacc]; exact hmiss)]
    exact hacc

/-- `applyStep` preserves the bookkeeping fields at every position. -/
theorem applyStep_metaFields (t : Transformation) (acc : List GcodeCommand)
    (i : ℤ) (j : ℕ) :
    ((applyStep t acc i)[j]?).map metaFields = (acc[j]?).map metaFields := by
  by_cases hne : (j : ℤ) = i
  · unfold applyStep
    split
    · rename_i h
      have hj : i.toNat = j := by omega
      split
      · rename_i cx cy hxs hys
        rw [← hj, List.getElem?_set_self (by omega),
          List.getElem?_eq_getElem h.2]
        simp [metaFields_transformCommandXY]
      · rfl
    · rfl
  · rw [applyStep_getElem?_ne t acc i j hne]

/-- The whole loop preserves the bookkeeping fields at every position. -/
theorem applyFold_metaFields (t : Transformation) :
    ∀ (inds : List ℤ) (acc : List GcodeCommand) (j : ℕ),
      ((inds.foldl (applyStep t) acc)[j]?).map metaFields = (acc[j]?).map metaFields
  | [], _, _ => rfl
  | i :: inds, acc, j => by
    rw [List.foldl_cons, applyFold_metaFields t inds _ j, applyStep_metaFields t acc i j]

/-- C9: `applyTransformationToRegion` is pure by construction (it folds over
a copy, never mutating its input), keeps the length, leaves unselected
positions and selected entries lacking `x` or `y` unchanged, and preserves
`lineNumber`, `mnemonic`, `f`, `e`, `s` and `comment` at every position —
only `x`, `y`, `z`, `raw` of selected coordinate-bearing entries change. -/
theorem c9_frame_preservation (commands : List GcodeCommand)
    (selectedIndices : List ℤ) (t : Transformation) :
    (applyTransformationToRegion commands selectedIndices t).length = commands.length ∧
    (∀ j : ℕ, (j : ℤ) ∉ selectedIndices →
      (applyTransformationToRegion commands selectedIndices t)[j]? = commands[j]?) ∧
    (∀ j : ℕ, ((commands[j]?.bind (·.x)) = none ∨ (commands[j]?.bind (·.y)) = none) →
      (applyTransformationToRegion commands selectedIndices t)[j]? = commands[j]?) ∧
    (∀ j : ℕ, ((applyTransformationToRegion commands selectedIndices t)[j]?).map metaFields =
      (commands[j]?).map metaFields) :=
  ⟨applyFold_length t selectedIndices commands,
   fun j hj => applyFold_not_selected t selectedIndices commands j hj,
   fun j hm => applyFold_missing t commands selectedIndices commands j rfl hm,
   fun j => applyFold_metaFields t selectedIndices commands j⟩

/-- `splitNl` always yields at least one piece. -/
theorem splitNl_ne_nil : ∀ (l : List Char), splitNl l ≠ []
  | [] => by simp [splitNl]
  | c :: rest => by
    simp only [splitNl]
    split
    · simp
    · split <;> simp

/-- No piece of a split contains a newline. -/
theorem noNl_of_mem_splitNl : ∀ (l t : List Char), t ∈ splitNl l → '\n' ∉ t
  | [], t, ht => by
    simp [splitNl] at ht
    subst ht
    simp
  | c :: rest, t, ht => by
    simp only [splitNl] at ht
    by_cases hc : c = '\n'
    · rw [if_pos hc] at ht
      rcases List.mem_cons.mp ht with h | h
      · subst h; simp
      · exact noNl_of_mem_splitNl rest t h
    · rw [if_neg hc] at ht
      cases hsp : splitNl rest with
      | nil => exact absurd hsp (splitNl_ne_nil rest)
      | cons hd tl =>
        rw [hsp] at ht
        rcases List.mem_cons.mp ht with h | h
        · subst h
          intro hmem
          rcases List.mem_cons.mp hmem with h' | h'
          · exact hc h'.symm
          · exact noNl_of_mem_splitNl rest hd
              (by rw [hsp]; exact List.mem_cons_self hd tl) h'
        · exact noNl_of_mem_splitNl rest t (by rw [hsp]; exact List.mem_cons_of_mem hd h)

/-- Splitting a newline-free line gives it back whole. -/
theorem splitNl_eq_single : ∀ (t : List Char), '\n' ∉ t → splitNl t = [t]
  | [], _ => rfl
  | c :: rest, h => by
    simp only [splitNl]
    rw [if_neg (by intro hc; exact h (by simp [hc]))]
    rw [splitNl_eq_single rest (fun hm => h (List.mem_cons_of_mem c hm))]

/-- Splitting after a newline-free prefix. -/
theorem splitNl_append : ∀ (t r : List Char), '\n' ∉ t →
    splitNl (t ++ '\n' :: r) = t :: splitNl r
  | [], r, _ => by simp [splitNl]
  | c :: ts, r, h => by
    simp only [List.cons_append, splitNl, List.append_eq]
    rw [if_neg (by intro hc; exact h (by simp [hc]))]
    rw [splitNl_append ts r (fun hm => h (List.mem_cons_of_mem c hm))]

/-- `split('\n')` undoes `join('\n')` on newline-free pieces. -/
theorem splitNl_joinNl : ∀ (ts : List (List Char)), ts ≠ [] →
    (∀ t ∈ ts, '\n' ∉ t) → splitNl (joinNl ts) = ts
  | [], h, _ => absurd rfl h
  | [t], _, hn => by
    simp only [joinNl]
    exact splitNl_eq_single t (hn t (List.mem_singleton_self t))
  | t :: t2 :: ts, _, hn => by
    show splitNl (t ++ '\n' :: joinNl (t2 :: ts)) = t :: (t2 :: ts)
    rw [splitNl_append t _ (hn t (List.mem_cons_self _ _)),
      splitNl_joinNl (t2 :: ts) (by simp) (fun u hu => hn u (List.mem_cons_of_mem t hu))]

/-- The head surviving a `dropWhile` fails the predicate. -/
theorem head_dropWhile_false {p : Char → Bool} {l : List Char} {a : Char}
    {as : List Char} (h : l.dropWhile p = a :: as) : p a = false := by
  have hh := List.head?_dropWhile_not p l
  rw [h] at hh
  simpa using hh

/-- `dropWhile` is idempotent. -/
theorem dropWhile_dropWhile (p : Char → Bool) (l : List Char) :
    (l.dropWhile p).dropWhile p = l.dropWhile p := by
  cases hd : l.dropWhile p with
  | nil => rfl
  | cons a as => rw [List.dropWhile_cons_of_neg (by simp [head_dropWhile_false hd])]

/-- A nonempty trimmed line starts with a non-space character. -/
theorem trimL_head_false {l : List Char} {a : Char} {as : List Char}
    (h : trimL l = a :: as) : isSpaceChar a = false := by
  unfold trimL at h
  have hsuffix : (((l.dropWhile isSpaceChar).reverse.dropWhile isSpaceChar)).reverse <+:
      l.dropWhile isSpaceChar := by
    have h1 : (l.dropWhile isSpaceChar).reverse.dropWhile isSpaceChar <:+
        (l.dropWhile isSpaceChar).reverse := List.dropWhile_suffix isSpaceChar
    have h2 : ((l.dropWhile isSpaceChar).reverse.dropWhile isSpaceChar).reverse <+:
        ((l.dropWhile isSpaceChar).reverse).reverse := List.reverse_prefix.mpr h1
    rwa [List.reverse_reverse] at h2
  rw [h] at hsuffix
  obtain ⟨u, hu⟩ := hsuffix
  rw [List.cons_append] at hu
  exact head_dropWhile_false hu.symm

/-- JS `trim` is idempotent. -/
theorem trimL_idem (l : List Char) : trimL (trimL l) = trimL l := by
  have hfront : (trimL l).dropWhile isSpaceChar = trimL l := by
    cases ht : trimL l with
    | nil => rfl
    | cons a as => rw [List.dropWhile_cons_of_neg (by simp [trimL_head_false ht])]
  show ((((trimL l).dropWhile isSpaceChar).reverse.dropWhile isSpaceChar)).reverse = trimL l
  rw [hfront]
  show ((((((l.dropWhile isSpaceChar).reverse.dropWhile isSpaceChar)).reverse).reverse.dropWhile isSpaceChar)).reverse =
    trimL l
  rw [List.reverse_reverse, dropWhile_dropWhile]
  rfl

/-- Trimming only removes characters. -/
theorem mem_of_mem_trimL {c : Char} {l : List Char} (h : c ∈ trimL l) : c ∈ l := by
  unfold trimL at h
  rw [List.mem_reverse] at h
  have h1 : c ∈ (l.dropWhile isSpaceChar).reverse := List.dropWhile_subset _ h
  rw [List.mem_reverse] at h1
  exact List.dropWhile_subset _ h1

/-- The empty line parses to nothing. -/
theorem parseLine_nil (n : Nat) : parseLine [] n = none := rfl

/-- A line whose code portion is empty (leading `;`) parses to nothing. -/
theorem parseLine_semi (l : List Char) (n : Nat) : parseLine (';' :: l) n = none := by
  simp [parseLine, List.takeWhile_cons, trimL]

/-- The line number only lands in the `line` field. -/
theorem parseLine_line (l : List Char) (n : Nat) :
    parseLine l n = (parseLine l 1).map (fun c => { c with line := n }) := by
  simp only [parseLine]
  split
  · rfl
  · split
    · split
      · rfl
      · rfl
    · rfl

/-- What a successful `parseLine` guarantees about the stored command. -/
theorem parseLine_raw (l : List Char) (n : Nat) (c : GcodeCommand)
    (h : parseLine l n = some c) : c.raw = l ∧ c.command ≠ [] ∧ c.line = n := by
  simp only [parseLine] at h
  split at h
  · exact absurd h (by simp)
  · split at h
    · split at h
      · exact absurd h (by simp)
      · rw [Option.some.injEq] at h
        subst h
        exact ⟨rfl, by simp, rfl⟩
    · exact absurd h (by simp)

/-- A line that parses as a code instruction — what C2 quantifies over
("valid instruction lines"): nonempty after trimming, not comment-only,
and carrying a leading `[GMT]\d+` token. -/
def validInstructionLine (l : List Char) : Bool := (parseLine (trimL l) 1).isSome

/-- On a valid instruction line the parse loop body is exactly `parseLine`. -/
theorem processLine_valid (i : Nat) (l : List Char)
    (hv : validInstructionLine l = true) :
    processLine i l = parseLine (trimL l) (i + 1) := by
  unfold validInstructionLine at hv
  simp only [processLine]
  cases ht : trimL l with
  | nil =>
    rw [ht] at hv
    simp [parseLine_nil] at hv
  | cons c cs =>
    rw [ht] at hv
    show (if c = ';' then some (commentCommand (i + 1) (c :: cs))
      else parseLine (c :: cs) (i + 1)) = parseLine (c :: cs) (i + 1)
    by_cases hc : c = ';'
    · subst hc
      rw [parseLine_semi] at hv
      simp at hv
    · rw [if_neg hc]

/-- Reconstructing the parse of valid instruction lines re-emits exactly
the trimmed lines. -/
theorem reconstruct_parseLinesFrom :
    ∀ (ls : List (List Char)) (i : Nat),
      (∀ l ∈ ls, validInstructionLine l = true) →
      (parseLinesFrom i ls).map
        (fun cmd => if cmd.command = [] ∧ cmd.comment.getD [] ≠ [] ∧ cmd.comment ≠ none
          then ';' :: ' ' :: cmd.comment.getD []
          else cmd.raw) = ls.map trimL
  | [], _, _ => rfl
  | l :: ls, i, hv => by
    have hvl := hv l (List.mem_cons_self l ls)
    obtain ⟨c, hc⟩ : ∃ c, parseLine (trimL l) (i + 1) = some c := by
      rw [parseLine_line (trimL l) (i + 1)]
      unfold validInstructionLine at hvl
      rw [Option.isSome_iff_exists] at hvl
      obtain ⟨c, hc⟩ := hvl
      exact ⟨_, by rw [hc]; rfl⟩
    simp only [parseLinesFrom, processLine_valid i l hvl, hc]
    obtain ⟨hraw, hcmd, _⟩ := parseLine_raw (trimL l) (i + 1) c hc
    simp only [List.map_cons]
    rw [if_neg (by simp [hcmd]), hraw,
      reconstruct_parseLinesFrom ls (i + 1) (fun u hu => hv u (List.mem_cons_of_mem l hu))]

/-- Serialisation of the parse of a fully valid text: the trimmed lines,
re-joined. -/
theorem reconstruct_parse_valid (content : List Char)
    (hv : ∀ l ∈ splitNl content, validInstructionLine l = true) :
    reconstructGcodeContent (parse content) = joinNl ((splitNl content).map trimL) := by
  unfold parse reconstructGcodeContent
  rw [reconstruct_parseLinesFrom (splitNl content) 0 hv]

/-- The loop body only sees the trimmed line. -/
theorem processLine_trimL (i : Nat) (l : List Char) :
    processLine i (trimL l) = processLine i l := by
  simp only [processLine, trimL_idem]

/-- Parsing trimmed lines parses the original lines. -/
theorem parseLinesFrom_map_trimL :
    ∀ (ls : List (List Char)) (i : Nat),
      parseLinesFrom i (ls.map trimL) = parseLinesFrom i ls
  | [], _ => rfl
  | l :: ls, i => by
    simp only [List.map_cons, parseLinesFrom]
    rw [processLine_trimL, parseLinesFrom_map_trimL ls (i + 1)]

/-- Trimmed split lines are newline-free. -/
theorem noNl_trimL_of_mem (content : List Char) :
    ∀ t ∈ (splitNl content).map trimL, '\n' ∉ t := by
  intro t ht
  rw [List.mem_map] at ht
  obtain ⟨u, hu, rfl⟩ := ht
  intro hmem
  exact noNl_of_mem_splitNl content u hu (mem_of_mem_trimL hmem)

/-- C2: for a text all of whose lines are valid instruction lines,
`parse (reconstructText (parse text))` equals `parse text` exactly —
field for field, every numeric value identical (a fortiori within the
0.001 tolerance), since reconstruction re-emits each command's `raw`. -/
theorem c2_parse_reconstruct_roundtrip (content : List Char)
    (hv : ∀ l ∈ splitNl content, validInstructionLine l = true) :
    parse (reconstructGcodeContent (parse content)) = parse content := by
  rw [reconstruct_parse_valid content hv]
  show parseLinesFrom 0 (splitNl (joinNl ((splitNl content).map trimL))) = parse content
  rw [splitNl_joinNl ((splitNl content).map trimL)
      (fun h => splitNl_ne_nil content (by simpa using h))
      (noNl_trimL_of_mem content)]
  exact parseLinesFrom_map_trimL (splitNl content) 0

/-- The concrete three-line program of the C2 witness. -/
def c2content : List Char := "G1 X10 Y0 F200\nG0 Z5 ; lift\nM3 S1000".data

/-- Witness for C2 at a concrete three-line program. -/
theorem c2_parse_reconstruct_roundtrip_witness :
    (∀ l ∈ splitNl c2content, validInstructionLine l = true) ∧
    parse (reconstructGcodeContent (parse c2content)) = parse c2content := by
  have hv : ∀ l ∈ splitNl c2content, validInstructionLine l = true := by decide
  exact ⟨hv, c2_parse_reconstruct_roundtrip c2content hv⟩

/-- Rounding a rational intermediate value agrees with the rational
rounding. -/
theorem round3R_ratCast (q : ℚ) : round3R (q : ℝ) = round3q q := by
  unfold round3R round3q
  rw [show ((q : ℝ) * 1000) = ((q * 1000 : ℚ) : ℝ) by push_cast; ring, Rat.round_cast]

/-- Formatting a rational intermediate value agrees with the rational
formatting. -/
theorem toFixed3R_ratCast (q : ℚ) : toFixed3R (q : ℝ) = toFixed3q q := by
  unfold toFixed3R toFixed3q
  rw [show ((q : ℝ) * 1000) = ((q * 1000 : ℚ) : ℝ) by push_cast; ring, Rat.round_cast]

/-- `regenerateGcodeLine` specialised to rational coordinates (the no-rotation
case), stated with the computable formatter. -/
def regenerateGcodeLineQ (originalCmd : GcodeCommand) (x y : ℚ)
    (z : Option ℚ) : List Char :=
  originalCmd.command
    ++ (' ' :: 'X' :: toFixed3q x)
    ++ (' ' :: 'Y' :: toFixed3q y)
    ++ (match z with
        | some zv => ' ' :: 'Z' :: toFixed3q zv
        | none => [])
    ++ (match originalCmd.f with
        | some fv => ' ' :: 'F' :: numToString fv
        | none => [])
    ++ (match originalCmd.e with
        | some ev => ' ' :: 'E' :: toFixed3q ev
        | none => [])
    ++ (match originalCmd.s with
        | some sv => ' ' :: 'S' :: numToString sv
        | none => [])
    ++ (match originalCmd.comment with
        | some cmt => if cmt.isEmpty then [] else ' ' :: ';' :: ' ' :: cmt
        | none => [])

/-- On rational coordinates the two regenerators agree. -/
theorem regenerateGcodeLine_ratCast (cmd : GcodeCommand) (x y : ℚ)
    (z : Option ℚ) :
    regenerateGcodeLine cmd (x : ℝ) (y : ℝ) z = regenerateGcodeLineQ cmd x y z := by
  unfold regenerateGcodeLine regenerateGcodeLineQ
  rw [toFixed3R_ratCast, toFixed3R_ratCast]

/-- Without rotation the coordinate pipeline is rational: scale then
translate. -/
theorem transformPoint_rotation_zero (t : Transformation) (ht : t.rotation = 0)
    (cx cy : ℚ) :
    transformPoint t cx cy =
      (((cx * t.scaleX + t.translateX : ℚ) : ℝ),
       ((cy * t.scaleY + t.translateY : ℚ) : ℝ)) := by
  simp only [transformPoint]
  rw [if_neg (by simp [ht])]
  push_cast
  rfl

/-- Without rotation the whole per-command transform is rational. -/
theorem transformCommandXY_rotation_zero (t : Transformation)
    (ht : t.rotation = 0) (cmd : GcodeCommand) (cx cy : ℚ) :
    transformCommandXY t cmd cx cy =
      { cmd with
        x := some (round3q (cx * t.scaleX + t.translateX))
        y := some (round3q (cy * t.scaleY + t.translateY))
        z := (if t.translateZ ≠ 0 then cmd.z.map (fun zv => zv + t.translateZ)
          else cmd.z).map round3q
        raw := regenerateGcodeLineQ cmd (cx * t.scaleX + t.translateX)
          (cy * t.scaleY + t.translateY)
          (if t.translateZ ≠ 0 then cmd.z.map (fun zv => zv + t.translateZ)
            else cmd.z) } := by
  simp only [transformCommandXY, transformPoint_rotation_zero t ht,
    round3R_ratCast, regenerateGcodeLine_ratCast]

/-- The identity parameters of C3: rotation 0°, scale (1, 1), translation
(0, 0, 0). -/
def identityTransformation : Transformation :=
  { translateX := 0, translateY := 0, translateZ := 0
    rotation := 0, scaleX := 1, scaleY := 1 }

/-- Applying the transform to the single selected entry of a one-command
list. -/
theorem applyRegion_singleton (t : Transformation) (cmd : GcodeCommand)
    (cx cy : ℚ) (hx : cmd.x = some cx) (hy : cmd.y = some cy) :
    applyTransformationToRegion [cmd] [0] t = [transformCommandXY t cmd cx cy] := by
  simp [applyTransformationToRegion, applyStep, hx, hy]

/-- The concrete command `G1 X10 Y0 F200` as the parser stores it. -/
def c3cmdA : GcodeCommand :=
  { line := 1, command := "G1".data, x := some 10, y := some 0, z := none
    f := some 200, e := none, s := none, comment := none
    raw := "G1 X10 Y0 F200".data }

/-- A command whose x (0.0005) is not at 3-decimal precision. -/
def c3cmdB : GcodeCommand :=
  { line := 1, command := "G1".data, x := some (1 / 2000), y := some 0, z := none
    f := none, e := none, s := none, comment := none
    raw := "G1 X0.0005 Y0".data }

/-- C3 counterexample: the identity transform (rotation 0, scale (1,1),
translation 0) does not leave a selected command unchanged — `raw` of
`G1 X10 Y0 F200` is regenerated as `G1 X10.000 Y0.000 F200`, and
x = 0.0005 is re-rounded to 0.001. -/
theorem c3_identity_changes_raw :
    (applyTransformationToRegion [c3cmdA] [0] identityTransformation).map (·.raw) ≠
      [c3cmdA].map (·.raw) ∧
    (applyTransformationToRegion [c3cmdB] [0] identityTransformation).map (·.x) ≠
      [c3cmdB].map (·.x) := by
  constructor
  · rw [applyRegion_singleton identityTransformation c3cmdA 10 0 rfl rfl,
      transformCommandXY_rotation_zero identityTransformation rfl]
    with_unfolding_all decide
  · rw [applyRegion_singleton identityTransformation c3cmdB (1 / 2000) 0 rfl rfl,
      transformCommandXY_rotation_zero identityTransformation rfl]
    with_unfolding_all decide

/-- The coordinates a command carries. -/
def coordFields (cmd : GcodeCommand) : Option ℚ × Option ℚ × Option ℚ :=
  (cmd.x, cmd.y, cmd.z)

/-- A command whose stored coordinates are already at 3-decimal precision. -/
def roundedCoords (cmd : GcodeCommand) : Prop :=
  cmd.x.map round3q = cmd.x ∧ cmd.y.map round3q = cmd.y ∧ cmd.z.map round3q = cmd.z

/-- One identity step preserves every command's coordinates (when the
stored coordinates are 3-decimal). -/
theorem applyStep_coordFields_id (acc : List GcodeCommand) (i : ℤ) (j : ℕ)
    (hq : ∀ cmd ∈ acc, roundedCoords cmd) :
    ((applyStep identityTransformation acc i)[j]?).map coordFields =
      (acc[j]?).map coordFields := by
  by_cases hne : (j : ℤ) = i
  · unfold applyStep
    split
    · rename_i h
      have hj : i.toNat = j := by omega
      split
      · rename_i cx cy hxs hys
        rw [← hj, List.getElem?_set_self (by omega), List.getElem?_eq_getElem h.2]
        obtain ⟨hqx, hqy, hqz⟩ := hq _ (List.get_mem acc i.toNat h.2)
        rw [transformCommandXY_rotation_zero identityTransformation rfl]
        have hcx : round3q cx = cx := by
          rw [hxs] at hqx
          simpa using hqx
        have hcy : round3q cy = cy := by
          rw [hys] at hqy
          simpa using hqy
        simp only [List.get_eq_getElem] at hxs hys hqz
        simp [coordFields, identityTransformation, hcx, hcy, hxs, hys, hqz]
      · rfl
    · rfl
  · rw [applyStep_getElem?_ne identityTransformation acc i j hne]

/-- One identity step preserves the rounded-coordinates property of every
entry. -/
theorem applyStep_preserves_rounded (acc : List GcodeCommand) (i : ℤ)
    (hq : ∀ cmd ∈ acc, roundedCoords cmd) :
    ∀ cmd ∈ applyStep identityTransformation acc i, roundedCoords cmd := by
  intro cmd hm
  obtain ⟨j, hjlt, hjget⟩ := List.getElem_of_mem hm
  have hco := applyStep_coordFields_id acc i j hq
  rw [List.getElem?_eq_getElem hjlt, hjget] at hco
  have hjlt' : j < acc.length := by
    have := applyStep_length identityTransformation acc i
    omega
  rw [List.getElem?_eq_getElem hjlt'] at hco
  obtain ⟨h1, h2, h3⟩ := hq acc[j] (List.getElem_mem hjlt')
  have hco' : coordFields cmd = coordFields acc[j] := by
    simpa using hco
  unfold coordFields at hco'
  unfold roundedCoords
  rw [show cmd.x = acc[j].x from congrArg (·.1) hco',
    show cmd.y = acc[j].y from congrArg (·.2.1) hco',
    show cmd.z = acc[j].z from congrArg (·.2.2) hco']
  exact ⟨h1, h2, h3⟩

/-- The identity loop preserves every position's coordinates. -/
theorem applyFold_coordFields_id :
    ∀ (inds : List ℤ) (acc : List GcodeCommand),
      (∀ cmd ∈ acc, roundedCoords cmd) → ∀ j : ℕ,
      ((inds.foldl (applyStep identityTransformation) acc)[j]?).map coordFields =
        (acc[j]?).map coordFields
  | [], _, _, _ => rfl
  | i :: inds, acc, hq, j => by
    rw [List.foldl_cons,
      applyFold_coordFields_id inds _ (applyStep_preserves_rounded acc i hq) j,
      applyStep_coordFields_id acc i j hq]

/-- C3 (amended): the identity transform leaves every command's x, y and z
unchanged provided the stored coordinates are already at 3-decimal
precision; `raw` of a selected coordinate-bearing entry is regenerated in
the canonical 3-decimal format rather than preserved verbatim. -/
theorem c3_identity_preserves_rounded_coords (commands : List GcodeCommand)
    (selectedIndices : List ℤ) (hq : ∀ cmd ∈ commands, roundedCoords cmd) :
    ∀ j : ℕ,
      ((applyTransformationToRegion commands selectedIndices identityTransformation)[j]?).map coordFields =
        (commands[j]?).map coordFields :=
  applyFold_coordFields_id selectedIndices commands hq

/-- A rounded concrete command for the C3 witness. -/
def c3cmdW : GcodeCommand :=
  { line := 1, command := "G1".data, x := some 1, y := some 2, z := none
    f := none, e := none, s := none, comment := none, raw := "G1 X1 Y2".data }

/-- Witness for C3 (amended) at the concrete command `G1 X1 Y2`. -/
theorem c3_identity_preserves_rounded_coords_witness :
    (∀ cmd ∈ [c3cmdW], roundedCoords cmd) ∧
    ((applyTransformationToRegion [c3cmdW] [0] identityTransformation)[0]?).map coordFields =
      ([c3cmdW][0]?).map coordFields := by
  have hW : ∀ cmd ∈ [c3cmdW], roundedCoords cmd := by
    intro cmd hm
    rw [List.mem_singleton] at hm
    subst hm
    unfold roundedCoords
    with_unfolding_all decide
  exact ⟨hW, c3_identity_preserves_rounded_coords [c3cmdW] [0] hW 0⟩

/-- Modelled from the spec's words (§4.2 steps 1–3): rotate the pair about
the world origin by `rotationDegrees` converted to radians with the
standard counter-clockwise matrix, then scale per axis, then translate. -/
noncomputable def transformPointSpec (t : Transformation) (cx cy : ℚ) : ℝ × ℝ :=
  (((cx : ℝ) * Real.cos ((t.rotation : ℝ) * Real.pi / 180) -
      (cy : ℝ) * Real.sin ((t.rotation : ℝ) * Real.pi / 180)) * (t.scaleX : ℝ) +
    (t.translateX : ℝ),
   ((cx : ℝ) * Real.sin ((t.rotation : ℝ) * Real.pi / 180) +
      (cy : ℝ) * Real.cos ((t.rotation : ℝ) * Real.pi / 180)) * (t.scaleY : ℝ) +
    (t.translateY : ℝ))

/-- The 90° rotation parameters of the C4 scenario. -/
def rotate90 : Transformation :=
  { translateX := 0, translateY := 0, translateZ := 0
    rotation := 90, scaleX := 1, scaleY := 1 }

/-- The concrete command at (10, 0) of the C4 scenario. -/
def c4cmd : GcodeCommand :=
  { line := 1, command := "G1".data, x := some 10, y := some 0, z := none
    f := none, e := none, s := none, comment := none, raw := "G1 X10 Y0".data }

/-- C4: the per-command pipeline is exactly rotate (about the origin, by
degrees·π/180, counter-clockwise) → scale → translate, z is translated only
when `translateZ ≠ 0`, each stored coordinate is the 3-decimal rounding of
the pipeline output — and rotating (10, 0) by 90° yields (0, 10) within
0.001. -/
theorem c4_rotate_scale_translate_round :
    (∀ (t : Transformation) (cx cy : ℚ),
      transformPoint t cx cy = transformPointSpec t cx cy) ∧
    (∀ (t : Transformation) (cmd : GcodeCommand) (cx cy : ℚ),
      (transformCommandXY t cmd cx cy).x = some (round3R (transformPointSpec t cx cy).1) ∧
      (transformCommandXY t cmd cx cy).y = some (round3R (transformPointSpec t cx cy).2) ∧
      (transformCommandXY t cmd cx cy).z =
        (if t.translateZ ≠ 0 then cmd.z.map (fun zv => zv + t.translateZ)
          else cmd.z).map round3q) ∧
    (∃ xv yv,
      ((applyTransformationToRegion [c4cmd] [0] rotate90)[0]?).bind (·.x) = some xv ∧
      ((applyTransformationToRegion [c4cmd] [0] rotate90)[0]?).bind (·.y) = some yv ∧
      |xv - 0| ≤ 1 / 1000 ∧ |yv - 10| ≤ 1 / 1000) := by
  have hpoint : ∀ (t : Transformation) (cx cy : ℚ),
      transformPoint t cx cy = transformPointSpec t cx cy := by
    intro t cx cy
    by_cases ht : t.rotation = 0
    · rw [transformPoint_rotation_zero t ht]
      simp only [transformPointSpec, ht]
      push_cast
      simp [Real.cos_zero, Real.sin_zero]
    · simp only [transformPoint, transformPointSpec]
      rw [if_pos ht]
  refine ⟨hpoint, ?_, ?_⟩
  · intro t cmd cx cy
    refine ⟨?_, ?_, rfl⟩ <;>
      simp only [transformCommandXY, hpoint]
  · have hp : transformPoint rotate90 10 0 = (((0 : ℚ) : ℝ), ((10 : ℚ) : ℝ)) := by
      simp only [transformPoint, rotate90]
      rw [if_pos (by norm_num)]
      rw [show ((((90 : ℚ) : ℝ)) * Real.pi / 180) = Real.pi / 2 by push_cast; ring]
      rw [Real.cos_pi_div_two, Real.sin_pi_div_two]
      push_cast
      norm_num
    refine ⟨0, 10, ?_, ?_, by norm_num, by norm_num⟩
    · rw [applyRegion_singleton rotate90 c4cmd 10 0 rfl rfl]
      simp only [transformCommandXY, hp, List.getElem?_cons_zero, Option.some_bind]
      rw [round3R_ratCast]
      have : round3q 0 = 0 := by with_unfolding_all decide
      simp [this]
    · rw [applyRegion_singleton rotate90 c4cmd 10 0 rfl rfl]
      simp only [transformCommandXY, hp, List.getElem?_cons_zero, Option.some_bind]
      rw [round3R_ratCast]
      have : round3q 10 = 10 := by with_unfolding_all decide
      simp [this]

/-- C10: out-of-range indices (negative or past the end) are silently
skipped — the result is exactly that of applying the transform to the
in-range indices only (and the loop, being total, never throws). -/
theorem c10_out_of_range_indices_ignored (commands : List GcodeCommand)
    (selectedIndices : List ℤ) (t : Transformation) :
    applyTransformationToRegion commands selectedIndices t =
      applyTransformationToRegion commands
        (selectedIndices.filter fun i => decide (0 ≤ i) && decide (i < (commands.length : ℤ))) t :=
  applyFold_filter_in_range t commands.length selectedIndices commands rfl

end Gcode
